import Mathlib

/-!
Verification of the text-processing core of the `my-carousel` repository.

Strings are modelled as `List Char` (one element per UTF-16 code unit of the
source's strings; all inputs considered are in the BMP, where the two notions
coincide).  JavaScript regular-expression operations are modelled
operationally: each regex used by the source is translated into an explicit
scanning function with the same leftmost-match / greedy / lazy backtracking
behaviour on the character list.
-/

namespace MyCarousel

/-- The JavaScript `\s` character class (also the set removed by
`String.prototype.trim`). -/
def isWs (c : Char) : Bool :=
  c = ' ' || c = '\t' || c = '\n' || c = '\r' || c.toNat = 11 || c.toNat = 12 ||
  c.toNat = 0xa0 || c.toNat = 0x1680 || (0x2000 ≤ c.toNat && c.toNat ≤ 0x200a) ||
  c.toNat = 0x2028 || c.toNat = 0x2029 || c.toNat = 0x202f || c.toNat = 0x205f ||
  c.toNat = 0x3000 || c.toNat = 0xfeff

/-- The `[.!?]` character class of the splitter's regexes. -/
def isPunct (c : Char) : Bool :=
  c = '.' || c = '!' || c = '?'

/-- The `[A-Z]` character class. -/
def isUpper (c : Char) : Bool :=
  'A' ≤ c && c ≤ 'Z'

/-- JavaScript `String.prototype.trim`: drop `\s` characters from both ends. -/
def trim (s : List Char) : List Char :=
  ((s.dropWhile isWs).reverse.dropWhile isWs).reverse

/-- JavaScript `.replace(/\s+/g, ' ')`: collapse every whitespace run to a
single space. -/
def collapseWs : List Char → List Char
  | [] => []
  | c :: rest =>
    if isWs c then
      match rest with
      | [] => [' ']
      | d :: _ => if isWs d then collapseWs rest else ' ' :: collapseWs rest
    else c :: collapseWs rest

/-- State machine for `.replace(/([.!?])\s*([A-Z])/g, '$1\n$2')`: the state
`some (p, ws)` means a punctuation character `p` followed by the (reversed)
whitespace run `ws` has been read and the scanner is looking for an uppercase
letter completing the match. -/
def addBreaksGo : Option (Char × List Char) → List Char → List Char
  | none, [] => []
  | some (p, ws), [] => p :: ws.reverse
  | none, c :: rest =>
    if isPunct c then addBreaksGo (some (c, [])) rest
    else c :: addBreaksGo none rest
  | some (p, ws), c :: rest =>
    if isWs c then addBreaksGo (some (p, c :: ws)) rest
    else if isUpper c then p :: '\n' :: c :: addBreaksGo none rest
    else if isPunct c then p :: ws.reverse ++ addBreaksGo (some (c, [])) rest
    else p :: ws.reverse ++ c :: addBreaksGo none rest

/-- `.replace(/([.!?])\s*([A-Z])/g, '$1\n$2')` (sentence-boundary marker
insertion). -/
def addBreaks (s : List Char) : List Char :=
  addBreaksGo none s

/-- State machine for `.split(/(?<=[.!?])\s+/)`: state `some acc` is the
current fragment (reversed); state `none` means the matched whitespace run is
being consumed. -/
def splitSentGo : Option (List Char) → List Char → List (List Char)
  | some acc, [] => [acc.reverse]
  | none, [] => [[]]
  | some acc, c :: rest =>
    if isWs c && (match acc with | p :: _ => isPunct p | [] => false) then
      acc.reverse :: splitSentGo none rest
    else splitSentGo (some (c :: acc)) rest
  | none, c :: rest =>
    if isWs c then splitSentGo none rest
    else splitSentGo (some [c]) rest

/-- JavaScript `.split(/(?<=[.!?])\s+/)`: break after `.`, `!` or `?`
followed by whitespace, the whitespace run being removed. -/
def splitSentences (s : List Char) : List (List Char) :=
  splitSentGo (some []) s

/-- State machine for `.split(/\s+/)` (empty fragments kept, as in
JavaScript). -/
def splitWsGo : Option (List Char) → List Char → List (List Char)
  | some acc, [] => [acc.reverse]
  | none, [] => [[]]
  | some acc, c :: rest =>
    if isWs c then acc.reverse :: splitWsGo none rest
    else splitWsGo (some (c :: acc)) rest
  | none, c :: rest =>
    if isWs c then splitWsGo none rest
    else splitWsGo (some [c]) rest

/-- JavaScript `.split(/\s+/)`. -/
def splitWs (s : List Char) : List (List Char) :=
  splitWsGo (some []) s

/-- `getWordCount` from `textSplitter.ts`:
`text.trim().split(/\s+/).filter(word => word.length > 0).length`. -/
def getWordCount (text : List Char) : Nat :=
  ((splitWs (trim text)).filter (fun w => decide (0 < w.length))).length

/-- JavaScript `.split(' ')` (single-character separator, empty fragments
kept). -/
def splitOnSpace : List Char → List (List Char)
  | [] => [[]]
  | c :: rest =>
    if c = ' ' then [] :: splitOnSpace rest
    else match splitOnSpace rest with
      | [] => [[c]]
      | w :: ws => (c :: w) :: ws

/-- The word-accumulation loop of `splitLongSentence`: returns the completed
slides and the final value of `currentSlide` (the remainder). -/
def splitLongGo (maxC minW : Nat) : List (List Char) → List Char →
    List (List Char) × List Char
  | [], cur => ([], cur)
  | w :: rest, cur =>
    if cur ≠ [] ∧ maxC < cur.length + 1 + w.length then
      if minW ≤ getWordCount cur then
        let p := splitLongGo maxC minW rest w
        (trim cur :: p.1, p.2)
      else splitLongGo maxC minW rest (trim (cur ++ ' ' :: w))
    else splitLongGo maxC minW rest (if cur = [] then w else cur ++ ' ' :: w)

/-- `splitLongSentence` from `textSplitter.ts`: split an oversized buffer at
word granularity. -/
def splitLongSentence (sentence : List Char) (maxC minW : Nat) :
    List (List Char) × List Char :=
  splitLongGo maxC minW (splitOnSpace sentence) []

/-- The reactive word-level split at the end of each loop iteration of
`splitTextIntoSlides`: if the buffer now exceeds `maxCharacters`, run
`splitLongSentence` on it and keep only the remainder as the new buffer. -/
def flushStep (maxC minW : Nat) (cur : List Char) :
    List (List Char) × List Char :=
  if maxC < cur.length then splitLongSentence cur maxC minW else ([], cur)

/-- The sentence-accumulation loop of `splitTextIntoSlides` (lines 40-69 of
`textSplitter.ts`), including the final flush of a non-empty buffer. -/
def mainGo (maxC minW : Nat) : List (List Char) → List Char → List (List Char)
  | [], cur => if trim cur ≠ [] then [trim cur] else []
  | s :: rest, cur =>
    let ts := trim s
    if cur ≠ [] ∧ maxC < cur.length + 1 + ts.length then
      if minW ≤ getWordCount cur then
        let p := flushStep maxC minW ts
        trim cur :: (p.1 ++ mainGo maxC minW rest p.2)
      else
        let p := flushStep maxC minW (trim (cur ++ ' ' :: ts))
        p.1 ++ mainGo maxC minW rest p.2
    else
      let p := flushStep maxC minW (if cur = [] then ts else cur ++ ' ' :: ts)
      p.1 ++ mainGo maxC minW rest p.2

/-- `TextSplitterOptions` (after the `{...DEFAULT_OPTIONS, ...options}`
merge: all fields present). -/
structure TextSplitterOptions where
  maxCharacters : Nat
  respectSentenceBoundaries : Bool
  minWordsPerSlide : Nat
  deriving DecidableEq

/-- `DEFAULT_OPTIONS` from `textSplitter.ts`. -/
def DEFAULT_OPTIONS : TextSplitterOptions :=
  { maxCharacters := 130, respectSentenceBoundaries := true, minWordsPerSlide := 3 }

/-- The per-slide mapping step of `postProcessSlides`: append a period to a
slide of length over ten characters that does not end in `.`, `!` or `?` and
splits into at least three space-separated words. -/
def periodStep (slide : List Char) : List Char :=
  if (match slide.getLast? with | some c => isPunct c | none => false) = false ∧
      10 < slide.length then
    if 3 ≤ (splitOnSpace slide).length then slide ++ ['.'] else slide
  else slide

/-- `postProcessSlides` from `textSplitter.ts`. -/
def postProcessSlides (slides : List (List Char))
    (options : TextSplitterOptions) : List (List Char) :=
  (((slides.map trim).filter (fun s => decide (0 < s.length))).filter
      (fun s => decide (Nat.min options.minWordsPerSlide 1 ≤ getWordCount s))).map
    periodStep

/-- `splitTextIntoSlides` from `textSplitter.ts` (with the option record
already merged with the defaults). -/
def splitTextIntoSlides (text : List Char) (options : TextSplitterOptions) :
    List (List Char) :=
  if trim text = [] then []
  else
    let cleanText := addBreaks (collapseWs (trim text))
    let sentences := (splitSentences cleanText).filter
      (fun s => decide (0 < (trim s).length))
    if sentences = [] then []
    else postProcessSlides
      (mainGo options.maxCharacters options.minWordsPerSlide sentences [])
      options

/-- Result record of `validateTextForSlides`. -/
structure TextValidation where
  isValid : Bool
  errors : List String
  warnings : List String
  deriving DecidableEq

/-- `validateTextForSlides` from `textSplitter.ts`. -/
def validateTextForSlides (text : List Char) : TextValidation :=
  let errors :=
    (if trim text = [] then ["Text cannot be empty"] else []) ++
    (if text.length < 10 then ["Text is too short (minimum 10 characters)"] else []) ++
    (if getWordCount text < 3 then ["Text must contain at least 3 words"] else [])
  let warnings :=
    (if 10000 < text.length then ["Text is very long and may generate many slides"] else []) ++
    (if 2000 < getWordCount text then ["Text contains many words and may take time to process"] else [])
  { isValid := errors.length = 0, errors := errors, warnings := warnings }

/-! ### Content analyzer (`contentAnalyzer.ts`) -/

/-- The backtick character (written numerically). -/
def btick : Char := Char.ofNat 96

/-- The left curly brace character (written numerically). -/
def lbrace : Char := Char.ofNat 123

/-- The right curly brace character (written numerically). -/
def rbrace : Char := Char.ofNat 125

/-- The opening-quote class `[“"']` of the labeled-extraction regexes. -/
def openQuote (c : Char) : Bool :=
  c = '“' || c = '"' || c = '\''

/-- The closing-quote class `[”"']` of the labeled-extraction regexes. -/
def closeQuote (c : Char) : Bool :=
  c = '”' || c = '"' || c = '\''

/-- `StructuredContent` from `contentAnalyzer.ts`; a JavaScript `undefined`
field is `none` and an empty string is `some []`. -/
structure StructuredContent where
  title : Option (List Char) := none
  body : Option (List Char) := none
  visual : Option (List Char) := none
  visualSnippet : Option (List Char) := none
  tags : Option (List (List Char)) := none
  deriving DecidableEq

/-- JavaScript truthiness of a `string | undefined` value: `undefined` and
the empty string are falsy. -/
def truthy : Option (List Char) → Bool
  | none => false
  | some l => !l.isEmpty

/-- Case-insensitive literal prefix match (`label` given in lower case);
returns the rest of the input on success. -/
def stripLabelCI (label : List Char) (s : List Char) : Option (List Char) :=
  if (s.take label.length).map Char.toLower = label then some (s.drop label.length)
  else none

/-- Lazy capture `([\s\S]+?)` followed by `[”"'](?=\s|$)`: scan for the first
closing quote preceded by a non-empty capture and followed by whitespace or
the end of input.  `acc` is the capture read so far (reversed). -/
def findCloseGo (acc : List Char) : List Char → Option (List Char)
  | [] => none
  | c :: rest =>
    if closeQuote c && !acc.isEmpty &&
        (match rest with | [] => true | d :: _ => isWs d) then
      some acc.reverse
    else findCloseGo (c :: acc) rest

/-- One attempt of `[“"']?([\s\S]+?)[”"'](?=\s|$)` at a fixed position:
the optional opening quote is greedy, so the branch consuming it is tried
first. -/
def attemptQuotedAt (s : List Char) : Option (List Char) :=
  match (match s with
         | c :: rest => if openQuote c then findCloseGo [] rest else none
         | [] => none) with
  | some cap => some cap
  | none => findCloseGo [] s

/-- Backtracking of the greedy `\s*` before the optional quote: try with the
maximal whitespace run consumed, then ever shorter runs. -/
def tryQuotedK (after : List Char) : Nat → Option (List Char)
  | 0 => attemptQuotedAt after
  | k + 1 =>
    match attemptQuotedAt (after.drop (k + 1)) with
    | some cap => some cap
    | none => tryQuotedK after k

/-- Leftmost match of `/Label:\s*[“"']?([\s\S]+?)[”"'](?=\s|$)/i`, returning
the capture group. -/
def searchQuoted (label : List Char) : List Char → Option (List Char)
  | [] => none
  | c :: rest =>
    match stripLabelCI label (c :: rest) with
    | some after =>
      match tryQuotedK after (after.takeWhile isWs).length with
      | some cap => some cap
      | none => searchQuoted label rest
    | none => searchQuoted label rest

/-- Lazy capture `([\s\S]+?)` up to a position where the lookahead `look`
holds; `acc` is the capture read so far (reversed). -/
def findLookGo (look : List Char → Bool) (acc : List Char) :
    List Char → Option (List Char)
  | [] => none
  | c :: rest =>
    if look rest then some (c :: acc).reverse
    else findLookGo look (c :: acc) rest

/-- Backtracking of the greedy `\s*` before an unquoted lazy capture. -/
def tryLookK (look : List Char → Bool) (after : List Char) :
    Nat → Option (List Char)
  | 0 => findLookGo look [] after
  | k + 1 =>
    match findLookGo look [] (after.drop (k + 1)) with
    | some cap => some cap
    | none => tryLookK look after k

/-- Leftmost match of `/Label:\s*([\s\S]+?)(?=...)/i` for a lookahead
predicate, returning the capture group. -/
def searchUnquoted (label : List Char) (look : List Char → Bool) :
    List Char → Option (List Char)
  | [] => none
  | c :: rest =>
    match stripLabelCI label (c :: rest) with
    | some after =>
      match tryLookK look after (after.takeWhile isWs).length with
      | some cap => some cap
      | none => searchUnquoted label look rest
    | none => searchUnquoted label look rest

/-- Lookahead `(?=$|\s*Body|\s*Visual)` of the unquoted title pattern. -/
def lookTitle (s : List Char) : Bool :=
  s.isEmpty ||
  (stripLabelCI ("body").toList (s.dropWhile isWs)).isSome ||
  (stripLabelCI ("visual").toList (s.dropWhile isWs)).isSome

/-- Lookahead `(?=$|\s*Visual)` of the unquoted body pattern. -/
def lookBody (s : List Char) : Bool :=
  s.isEmpty || (stripLabelCI ("visual").toList (s.dropWhile isWs)).isSome

/-- Lookahead `$` of the unquoted visual pattern `([\s\S]+)$`. -/
def lookVisual (s : List Char) : Bool :=
  s.isEmpty

/-- `text.match(/Title:.../i) || text.match(/Title:.../i)` — quoted pattern
first, unquoted fallback second. -/
def matchTitle (text : List Char) : Option (List Char) :=
  match searchQuoted ("title:").toList text with
  | some cap => some cap
  | none => searchUnquoted ("title:").toList lookTitle text

/-- The two body patterns of `extractLabeled`. -/
def matchBody (text : List Char) : Option (List Char) :=
  match searchQuoted ("body:").toList text with
  | some cap => some cap
  | none => searchUnquoted ("body:").toList lookBody text

/-- The two visual patterns of `extractLabeled`. -/
def matchVisual (text : List Char) : Option (List Char) :=
  match searchQuoted ("visual:").toList text with
  | some cap => some cap
  | none => searchUnquoted ("visual:").toList lookVisual text

/-- Scan for the closing triple backtick of a fenced block; returns the lazy
capture (contents before the first closing fence). -/
def findTripleClose : List Char → Option (List Char)
  | [] => none
  | c :: rest =>
    if (c :: rest).take 3 = [btick, btick, btick] then some []
    else match findTripleClose rest with
      | some cap => some (c :: cap)
      | none => none

/-- Leftmost match of ``/```([\s\S]*?)```/``, returning the full match and
the capture group. -/
def fencedSearch : List Char → Option (List Char × List Char)
  | [] => none
  | c :: rest =>
    if (c :: rest).take 3 = [btick, btick, btick] then
      match findTripleClose ((c :: rest).drop 3) with
      | some cap =>
        some ([btick, btick, btick] ++ cap ++ [btick, btick, btick], cap)
      | none => fencedSearch rest
    else fencedSearch rest

/-- Longest prefix of the input ending at its last right brace, if any
(the greedy `[\s\S]*\}` once a `\{` has matched). -/
def takeToLastRBrace : List Char → Option (List Char)
  | [] => none
  | c :: rest =>
    match takeToLastRBrace rest with
    | some r => some (c :: r)
    | none => if c = rbrace then some [c] else none

/-- Leftmost match of `/\{[\s\S]*\}/`, returning the full match. -/
def bracedSearch : List Char → Option (List Char)
  | [] => none
  | c :: rest =>
    if c = lbrace then
      match takeToLastRBrace rest with
      | some r => some (c :: r)
      | none => bracedSearch rest
    else bracedSearch rest

/-- `extractLabeled` from `contentAnalyzer.ts`. -/
def extractLabeled (text : List Char) : StructuredContent :=
  let visualRaw := (matchVisual text).map trim
  let visualSnippet : Option (List Char) :=
    match visualRaw with
    | some vr =>
      if vr.isEmpty then none
      else match fencedSearch vr with
        | some p => some (trim p.2)
        | none =>
          match bracedSearch vr with
          | some full => some (trim full)
          | none => none
    | none => none
  { title := (matchTitle text).map trim
    body := (matchBody text).map trim
    visual := visualRaw
    visualSnippet := visualSnippet
    tags := none }

/-- `normalize` from `contentAnalyzer.ts`:
`text.replace(/\r\n|\r/g, "\n").trim()`. -/
def normNewlines : List Char → List Char
  | [] => []
  | '\r' :: '\n' :: rest => '\n' :: normNewlines rest
  | '\r' :: rest => '\n' :: normNewlines rest
  | c :: rest => c :: normNewlines rest

/-- `normalize` from `contentAnalyzer.ts`. -/
def normalize (text : List Char) : List Char :=
  trim (normNewlines text)

/-- State machine for `.split(/\n+/)`. -/
def splitNlGo : Option (List Char) → List Char → List (List Char)
  | some acc, [] => [acc.reverse]
  | none, [] => [[]]
  | some acc, c :: rest =>
    if c = '\n' then acc.reverse :: splitNlGo none rest
    else splitNlGo (some (c :: acc)) rest
  | none, c :: rest =>
    if c = '\n' then splitNlGo none rest
    else splitNlGo (some [c]) rest

/-- JavaScript `.split(/\n+/)`. -/
def splitNl (s : List Char) : List (List Char) :=
  splitNlGo (some []) s

/-- The `/["'“”‘’]|[\u{1F300}-\u{1FAFF}]/u` test of the title heuristic. -/
def hasEmojiOrQuotes (l : List Char) : Bool :=
  l.any fun c =>
    c = '"' || c = '\'' || c = '“' || c = '”' || c = '‘' || c = '’' ||
    (0x1F300 ≤ c.toNat && c.toNat ≤ 0x1FAFF)

/-- The `/:\s*$/.test(line)` check of the title heuristic. -/
def endsWithColonWs (l : List Char) : Bool :=
  (l.reverse.dropWhile isWs).head? = some ':'

/-- `line.replace(/:\s*$/, "")`: remove a final colon together with the
whitespace following it. -/
def stripColonSuffix (l : List Char) : List Char :=
  if endsWithColonWs l then ((l.reverse.dropWhile isWs).drop 1).reverse else l

/-- The title-selection loop of the heuristics: first line that is at most
80 characters long and has a quote/emoji character or ends with a colon. -/
def findTitleLine : List (List Char) → Option (List Char)
  | [] => none
  | l :: rest =>
    if l.length ≤ 80 && (hasEmojiOrQuotes l || endsWithColonWs l) then
      some (stripColonSuffix l)
    else findTitleLine rest

/-- The keyword list of `detectKeywordsForVisual`. -/
def visualKeywords : List (List Char) :=
  ["api", "endpoint", "response", "json", "payload", "leak", "secret", "pii",
   "ssn", "token", "password"].map String.toList

/-- JavaScript `hay.includes(needle)` (substring containment). -/
def containsSub (needle : List Char) : List Char → Bool
  | [] => needle.isEmpty
  | c :: rest => needle.isPrefixOf (c :: rest) || containsSub needle rest

/-- `detectKeywordsForVisual` from `contentAnalyzer.ts`. -/
def detectKeywordsForVisual (text : List Char) : Option (List Char) :=
  let lower := text.map Char.toLower
  if visualKeywords.any (fun k => containsSub k lower) then
    some ("API response JSON with red highlights on sensitive fields").toList
  else none

/-- The `[a-z0-9_]` class (with the `i` flag) of the hashtag regex. -/
def isTagChar (c : Char) : Bool :=
  ('a' ≤ c && c ≤ 'z') || ('A' ≤ c && c ≤ 'Z') || ('0' ≤ c && c ≤ '9') || c = '_'

/-- State machine for `.match(/#[a-z0-9_]+/gi)`: state `some acc` holds the
tag characters (reversed) read since the last `#`. -/
def hashtagsGo : Option (List Char) → List Char → List (List Char)
  | none, [] => []
  | some acc, [] => if acc.isEmpty then [] else [('#' :: acc.reverse)]
  | none, c :: rest =>
    if c = '#' then hashtagsGo (some []) rest else hashtagsGo none rest
  | some acc, c :: rest =>
    if isTagChar c then hashtagsGo (some (c :: acc)) rest
    else if c = '#' then
      if acc.isEmpty then hashtagsGo (some []) rest
      else ('#' :: acc.reverse) :: hashtagsGo (some []) rest
    else
      if acc.isEmpty then hashtagsGo none rest
      else ('#' :: acc.reverse) :: hashtagsGo none rest

/-- All matches of `/#[a-z0-9_]+/gi` in order. -/
def hashtags (s : List Char) : List (List Char) :=
  hashtagsGo none s

/-- `Array.from(new Set(...))`: de-duplicate keeping first occurrences. -/
def dedupFirstGo (seen : List (List Char)) : List (List Char) → List (List Char)
  | [] => []
  | x :: xs =>
    if x ∈ seen then dedupFirstGo seen xs
    else x :: dedupFirstGo (x :: seen) xs

/-- De-duplicate a list of strings keeping first occurrences. -/
def dedupFirst (l : List (List Char)) : List (List Char) :=
  dedupFirstGo [] l

/-- `body.replace(needle, "")` for a literal (string) pattern: remove the
first occurrence, or return the input unchanged when there is none. -/
def removeFirst (needle : List Char) : List Char → List Char
  | [] => []
  | c :: rest =>
    if needle.isPrefixOf (c :: rest) then (c :: rest).drop needle.length
    else c :: removeFirst needle rest

/-- `body.replace(/\n{2,}/g, "\n")`: collapse every run of two or more
newlines to one. -/
def collapseNl : List Char → List Char
  | [] => []
  | c :: rest =>
    if c = '\n' then
      match rest with
      | [] => [c]
      | d :: _ => if d = '\n' then collapseNl rest else c :: collapseNl rest
    else c :: collapseNl rest

/-- `heuristics` from `contentAnalyzer.ts`. -/
def heuristics (text : List Char) : StructuredContent :=
  let normalized := normalize text
  let lines := ((splitNl normalized).map trim).filter (fun l => !l.isEmpty)
  let title0 := findTitleLine lines
  let title :=
    if truthy title0 then title0
    else
      let sentence := trim ((splitSentences normalized).headD [])
      if !sentence.isEmpty && sentence.length ≤ 120 then some sentence else title0
  let fenced := fencedSearch normalized
  let braced := bracedSearch normalized
  let visual : Option (List Char) :=
    match fenced with
    | some _ => some ("Code/JSON snippet detected").toList
    | none =>
      match braced with
      | some _ => some ("Code/JSON snippet detected").toList
      | none => detectKeywordsForVisual normalized
  let visualSnippet : Option (List Char) :=
    match fenced with
    | some p => some (trim p.2)
    | none =>
      match braced with
      | some full => some (trim full)
      | none => none
  let body1 :=
    match title with
    | some t => if t.isEmpty then normalized else trim (removeFirst t normalized)
    | none => normalized
  let body2 :=
    match fenced with
    | some p => trim (removeFirst p.1 body1)
    | none =>
      match braced with
      | some full => trim (removeFirst full body1)
      | none => body1
  let body := trim (collapseNl body2)
  { title := title
    body := some body
    visual := visual
    visualSnippet := visualSnippet
    tags := some (dedupFirst ((hashtags normalized).map (List.map Char.toLower))) }

/-- `hasAnyLabel` from `analyzeContent`: truthiness of the labeled title,
body or visual. -/
def hasAnyLabel (sc : StructuredContent) : Bool :=
  truthy sc.title || truthy sc.body || truthy sc.visual

/-- `analyzeContent` from `contentAnalyzer.ts`. -/
def analyzeContent (text : List Char) : StructuredContent :=
  let labeled := extractLabeled text
  if hasAnyLabel labeled then labeled else heuristics text

/-! ### Slide option validation (`slideGenerator` utilities) -/

/-- The argument of `validateSlideOptions`: a JavaScript
`Partial<SlideGeneratorOptions>` restricted to the fields the validator
reads.  `width` and `height` are numbers (modelled as integers), `quality`
is a number (modelled as a rational), `format` a string. -/
structure SlideOptionsIn where
  width : Option Int := none
  height : Option Int := none
  quality : Option ℚ := none
  format : Option String := none
  deriving DecidableEq

/-- Result record of `validateSlideOptions`. -/
structure OptionsValidation where
  isValid : Bool
  errors : List String
  deriving DecidableEq

/-- `validateSlideOptions` from the slide-generator module.  Each check is
guarded by JavaScript truthiness of the field (`options.width && ...`), so a
field that is absent — or equal to `0` (or the empty string for `format`) —
is never validated. -/
def validateSlideOptions (options : SlideOptionsIn) : OptionsValidation :=
  let errors :=
    (match options.width with
     | some w =>
       if w ≠ 0 ∧ (w < 100 ∨ 4000 < w) then
         ["Width must be between 100 and 4000 pixels"]
       else []
     | none => []) ++
    (match options.height with
     | some h =>
       if h ≠ 0 ∧ (h < 100 ∨ 4000 < h) then
         ["Height must be between 100 and 4000 pixels"]
       else []
     | none => []) ++
    (match options.quality with
     | some q =>
       if q ≠ 0 ∧ (q < 1/10 ∨ 1 < q) then
         ["Quality must be between 0.1 and 1"]
       else []
     | none => []) ++
    (match options.format with
     | some f =>
       if f ≠ "" ∧ ¬ (f = "png" ∨ f = "jpg") then
         ["Format must be either \"png\" or \"jpg\""]
       else []
     | none => [])
  { isValid := errors.isEmpty, errors := errors }

/-! ### Ghost-instrumented splitter

The splitter is re-run with one ghost bit per buffer: the bit is set at the
moment the buffer first grows past `maxCharacters`, provided the buffer's
word count just before that addition was below `minWordsPerSlide` (an empty
buffer counts zero words).  The computation of the slides themselves is
unchanged (a projection theorem ties the instrumented run to
`splitTextIntoSlides`), so the bit records exactly whether a slide's excess
length stems from a forced merge into a too-short buffer. -/

/-- Ghost-flag update when the buffer `pre` is replaced by `post`: set the
flag if the addition pushed the buffer past `maxC` while `pre` had fewer
than `minW` words. -/
def flagStep (maxC minW : Nat) (fl : Bool) (pre post : List Char) : Bool :=
  fl || (decide (pre.length ≤ maxC) && decide (maxC < post.length) &&
         decide (getWordCount pre < minW))

/-- `splitLongGo` with the ghost flag threaded through. -/
def instrSplitLongGo (maxC minW : Nat) :
    List (List Char) → List Char → Bool →
    List (List Char × Bool) × (List Char × Bool)
  | [], cur, fl => ([], (cur, fl))
  | w :: rest, cur, fl =>
    if cur ≠ [] ∧ maxC < cur.length + 1 + w.length then
      if minW ≤ getWordCount cur then
        let p := instrSplitLongGo maxC minW rest w (flagStep maxC minW false [] w)
        ((trim cur, fl) :: p.1, p.2)
      else
        instrSplitLongGo maxC minW rest (trim (cur ++ ' ' :: w))
          (flagStep maxC minW fl cur (trim (cur ++ ' ' :: w)))
    else
      instrSplitLongGo maxC minW rest (if cur = [] then w else cur ++ ' ' :: w)
        (flagStep maxC minW fl cur (if cur = [] then w else cur ++ ' ' :: w))

/-- `flushStep` with the ghost flag threaded through (a restarted word-level
split begins with a fresh empty buffer and a cleared flag). -/
def instrFlushStep (maxC minW : Nat) (cur : List Char) (fl : Bool) :
    List (List Char × Bool) × (List Char × Bool) :=
  if maxC < cur.length then
    instrSplitLongGo maxC minW (splitOnSpace cur) [] false
  else ([], (cur, fl))

/-- `mainGo` with the ghost flag threaded through. -/
def instrMainGo (maxC minW : Nat) :
    List (List Char) → List Char → Bool → List (List Char × Bool)
  | [], cur, fl => if trim cur ≠ [] then [(trim cur, fl)] else []
  | s :: rest, cur, fl =>
    let ts := trim s
    if cur ≠ [] ∧ maxC < cur.length + 1 + ts.length then
      if minW ≤ getWordCount cur then
        let p := instrFlushStep maxC minW ts (flagStep maxC minW false [] ts)
        (trim cur, fl) :: (p.1 ++ instrMainGo maxC minW rest p.2.1 p.2.2)
      else
        let c1 := trim (cur ++ ' ' :: ts)
        let p := instrFlushStep maxC minW c1 (flagStep maxC minW fl cur c1)
        p.1 ++ instrMainGo maxC minW rest p.2.1 p.2.2
    else
      let c1 := if cur = [] then ts else cur ++ ' ' :: ts
      let p := instrFlushStep maxC minW c1 (flagStep maxC minW fl cur c1)
      p.1 ++ instrMainGo maxC minW rest p.2.1 p.2.2

/-- `postProcessSlides` with the ghost flag carried along unchanged. -/
def instrPostProcessSlides (slides : List (List Char × Bool))
    (options : TextSplitterOptions) : List (List Char × Bool) :=
  (((slides.map (fun p => (trim p.1, p.2))).filter
        (fun p => decide (0 < p.1.length))).filter
      (fun p => decide (Nat.min options.minWordsPerSlide 1 ≤ getWordCount p.1))).map
    (fun p => (periodStep p.1, p.2))

/-- `splitTextIntoSlides` with the ghost flag threaded through. -/
def instrSplitTextIntoSlides (text : List Char) (options : TextSplitterOptions) :
    List (List Char × Bool) :=
  if trim text = [] then []
  else
    let cleanText := addBreaks (collapseWs (trim text))
    let sentences := (splitSentences cleanText).filter
      (fun s => decide (0 < (trim s).length))
    if sentences = [] then []
    else instrPostProcessSlides
      (instrMainGo options.maxCharacters options.minWordsPerSlide sentences [] false)
      options

/-! ### Words of a string

`wordsOf s` lists the maximal whitespace-free runs of `s` — the words of
`s` in order.  It is the reference notion used to state word preservation;
`getWordCount` is proved to be its length. -/

/-- Accumulator machine listing the maximal non-whitespace runs; `acc` is
the current run (reversed). -/
def wordsGo : List Char → List Char → List (List Char)
  | acc, [] => if acc.isEmpty then [] else [acc.reverse]
  | acc, c :: rest =>
    if isWs c then
      if acc.isEmpty then wordsGo [] rest else acc.reverse :: wordsGo [] rest
    else wordsGo (c :: acc) rest

/-- The words (maximal non-whitespace runs) of a string, in order. -/
def wordsOf (s : List Char) : List (List Char) :=
  wordsGo [] s

/-- All words of a list of strings, concatenated in order. -/
def wordsAll (l : List (List Char)) : List (List Char) :=
  (l.map wordsOf).flatten

theorem wordsAll_nil : wordsAll [] = [] := rfl

theorem wordsAll_cons (s : List Char) (l : List (List Char)) :
    wordsAll (s :: l) = wordsOf s ++ wordsAll l := by
  simp [wordsAll]

theorem wordsAll_append (l l' : List (List Char)) :
    wordsAll (l ++ l') = wordsAll l ++ wordsAll l' := by
  simp [wordsAll]

/-- Splitting at a whitespace character splits the word list. -/
theorem wordsGo_append_ws {c : Char} (hc : isWs c = true) (a b acc : List Char) :
    wordsGo acc (a ++ c :: b) = wordsGo acc a ++ wordsGo [] b := by
  induction a generalizing acc with
  | nil => cases acc <;> simp [wordsGo, hc]
  | cons d a ih =>
    by_cases hd : isWs d = true
    · cases acc <;> simp [wordsGo, hd, ih]
    · simp only [List.cons_append, wordsGo, hd, if_false, Bool.false_eq_true]
      exact ih _

/-- A string of whitespace contributes no words beyond flushing the
accumulator. -/
theorem wordsGo_allws {t : List Char} (h : ∀ c ∈ t, isWs c = true)
    (acc : List Char) : wordsGo acc t = wordsGo acc [] := by
  induction t generalizing acc with
  | nil => rfl
  | cons c t ih =>
    have hc : isWs c = true := h c (by simp)
    have ht : ∀ d ∈ t, isWs d = true := fun d hd => h d (by simp [hd])
    cases acc with
    | nil => simpa [wordsGo, hc] using ih ht []
    | cons e acc => simpa [wordsGo, hc] using ih ht []

/-- Appending trailing whitespace does not change the word list. -/
theorem wordsGo_append_allws {t : List Char} (h : ∀ c ∈ t, isWs c = true)
    (a acc : List Char) : wordsGo acc (a ++ t) = wordsGo acc a := by
  induction a generalizing acc with
  | nil => simpa using wordsGo_allws h acc
  | cons d a ih =>
    by_cases hd : isWs d = true
    · cases acc <;> simp [wordsGo, hd, ih]
    · simp only [List.cons_append, wordsGo, hd, if_false, Bool.false_eq_true]
      exact ih _

theorem length_dropWhile_le (p : Char → Bool) (l : List Char) :
    (l.dropWhile p).length ≤ l.length := by
  induction l with
  | nil => simp
  | cons c l ih =>
    by_cases hc : p c = true
    · simp only [List.dropWhile_cons, hc, if_true]
      exact Nat.le_succ_of_le ih
    · simp [List.dropWhile_cons, hc]

/-- Dropping leading whitespace does not change the word list. -/
theorem wordsOf_dropWhile (s : List Char) :
    wordsOf (s.dropWhile isWs) = wordsOf s := by
  induction s with
  | nil => rfl
  | cons c s ih =>
    by_cases hc : isWs c = true
    · simpa [wordsOf, List.dropWhile_cons, hc, wordsGo] using ih
    · simp [List.dropWhile_cons, hc]

/-- Trimming does not change the word list. -/
theorem wordsOf_trim (s : List Char) : wordsOf (trim s) = wordsOf s := by
  have hu : wordsOf (s.dropWhile isWs) = wordsOf s := wordsOf_dropWhile s
  set u := s.dropWhile isWs with hudef
  have hsplit : u.reverse.takeWhile isWs ++ u.reverse.dropWhile isWs = u.reverse :=
    List.takeWhile_append_dropWhile isWs u.reverse
  have hu2 : u = (u.reverse.dropWhile isWs).reverse ++ (u.reverse.takeWhile isWs).reverse := by
    conv_lhs => rw [← List.reverse_reverse u, ← hsplit]
    rw [List.reverse_append]
  have hws : ∀ c ∈ (u.reverse.takeWhile isWs).reverse, isWs c = true := by
    intro c hcmem
    exact List.mem_takeWhile_imp (List.mem_reverse.mp hcmem)
  calc wordsOf (trim s)
      = wordsGo [] ((u.reverse.dropWhile isWs).reverse ++ (u.reverse.takeWhile isWs).reverse) := by
        rw [wordsOf, trim, ← hudef]
        exact (wordsGo_append_allws hws _ []).symm
    _ = wordsOf u := by rw [← hu2]; rfl
    _ = wordsOf s := hu

theorem length_trim_le (s : List Char) : (trim s).length ≤ s.length := by
  calc (trim s).length
      = ((s.dropWhile isWs).reverse.dropWhile isWs).length := by simp [trim]
    _ ≤ (s.dropWhile isWs).reverse.length := length_dropWhile_le _ _
    _ = (s.dropWhile isWs).length := by simp
    _ ≤ s.length := length_dropWhile_le _ _

/-- The word machine never returns an empty list from a non-empty
accumulator. -/
theorem wordsGo_ne_nil {acc : List Char} (h : acc ≠ []) (s : List Char) :
    wordsGo acc s ≠ [] := by
  induction s generalizing acc with
  | nil => simp [wordsGo, h]
  | cons c s ih =>
    by_cases hc : isWs c = true
    · cases acc with
      | nil => exact absurd rfl h
      | cons a acc => simp [wordsGo, hc]
    · simp only [wordsGo, hc, if_false, Bool.false_eq_true]
      exact ih (by simp)

/-- A string has no words exactly when it is all whitespace. -/
theorem wordsOf_eq_nil_iff (s : List Char) :
    wordsOf s = [] ↔ ∀ c ∈ s, isWs c = true := by
  induction s with
  | nil => simp [wordsOf, wordsGo]
  | cons c s ih =>
    by_cases hc : isWs c = true
    · simpa [wordsOf, wordsGo, hc] using ih
    · simp only [wordsOf, wordsGo, hc, if_false, Bool.false_eq_true]
      constructor
      · intro h
        exact absurd h (wordsGo_ne_nil (by simp) s)
      · intro h
        exact absurd (h c (by simp)) (by simp [hc])

/-- All-whitespace strings trim to the empty string. -/
theorem trim_eq_nil_of_allws {s : List Char} (h : ∀ c ∈ s, isWs c = true) :
    trim s = [] := by
  have h1 : s.dropWhile isWs = [] := List.dropWhile_eq_nil_iff.mpr h
  simp [trim, h1]

/-- The `filter(word => word.length > 0)` of `getWordCount` turns the
JavaScript `\s+`-split into the word list. -/
theorem filter_splitWsGo (s : List Char) :
    ∀ st : Option (List Char),
      (splitWsGo st s).filter (fun w => decide (0 < w.length)) =
        wordsGo (match st with | some acc => acc | none => []) s := by
  induction s with
  | nil =>
    intro st
    match st with
    | none => simp [splitWsGo, wordsGo]
    | some acc => cases acc <;> simp [splitWsGo, wordsGo]
  | cons c s ih =>
    intro st
    by_cases hc : isWs c = true
    · match st with
      | none => simpa [splitWsGo, wordsGo, hc] using ih none
      | some acc =>
        cases acc with
        | nil => simpa [splitWsGo, wordsGo, hc] using ih none
        | cons a acc => simpa [splitWsGo, wordsGo, hc] using ih none
    · match st with
      | none => simpa [splitWsGo, wordsGo, hc] using ih (some [c])
      | some acc => simpa [splitWsGo, wordsGo, hc] using ih (some (c :: acc))

/-- `getWordCount` counts the words of its argument. -/
theorem getWordCount_eq (s : List Char) :
    getWordCount s = (wordsOf s).length := by
  rw [getWordCount, splitWs, filter_splitWsGo]
  show (wordsOf (trim s)).length = _
  rw [wordsOf_trim]

/-- A word count of zero means the string is all whitespace. -/
theorem getWordCount_eq_zero_iff (s : List Char) :
    getWordCount s = 0 ↔ ∀ c ∈ s, isWs c = true := by
  rw [getWordCount_eq, List.length_eq_zero, wordsOf_eq_nil_iff]

theorem wordsOf_append_sp (a b : List Char) :
    wordsOf (a ++ ' ' :: b) = wordsOf a ++ wordsOf b :=
  wordsGo_append_ws (by decide) a b []

/-! ### Word preservation through the splitter -/

/-- Rejoin the fragments of a `.split(' ')` with single spaces. -/
def joinSp : List (List Char) → List Char
  | [] => []
  | [w] => w
  | w :: ws => w ++ ' ' :: joinSp ws

theorem splitOnSpace_ne_nil (s : List Char) : splitOnSpace s ≠ [] := by
  induction s with
  | nil => simp [splitOnSpace]
  | cons c s ih =>
    by_cases hc : c = ' '
    · simp [splitOnSpace, hc]
    · simp only [splitOnSpace, hc, if_false]
      rcases h : splitOnSpace s with _ | ⟨w, ws⟩
      · exact absurd h ih
      · simp

theorem joinSp_splitOnSpace (s : List Char) : joinSp (splitOnSpace s) = s := by
  induction s with
  | nil => rfl
  | cons c s ih =>
    rcases h : splitOnSpace s with _ | ⟨w, ws⟩
    · exact absurd h (splitOnSpace_ne_nil s)
    · rw [h] at ih
      by_cases hc : c = ' '
      · subst hc
        simp only [splitOnSpace, if_pos rfl, h, joinSp, ih]
        simp
      · cases ws with
        | nil =>
          simp only [splitOnSpace, hc, if_false, h, joinSp] at ih ⊢
          simp [ih]
        | cons v vs =>
          simp only [splitOnSpace, hc, if_false, h, joinSp] at ih ⊢
          simp [ih]

theorem wordsOf_joinSp (l : List (List Char)) : wordsOf (joinSp l) = wordsAll l := by
  induction l with
  | nil => rfl
  | cons w ws ih =>
    cases ws with
    | nil => simp [joinSp, wordsAll]
    | cons v vs =>
      show wordsOf (w ++ ' ' :: joinSp (v :: vs)) = _
      rw [wordsOf_append_sp, ih, wordsAll_cons]
      simp [wordsAll]

theorem wordsAll_splitOnSpace (s : List Char) :
    wordsAll (splitOnSpace s) = wordsOf s := by
  rw [← wordsOf_joinSp, joinSp_splitOnSpace]

/-- The word-level loop of `splitLongSentence` only regroups words. -/
theorem splitLongGo_words (maxC minW : Nat) (tokens : List (List Char)) :
    ∀ cur, wordsAll (splitLongGo maxC minW tokens cur).1 ++
        wordsOf (splitLongGo maxC minW tokens cur).2 =
      wordsOf cur ++ wordsAll tokens := by
  induction tokens with
  | nil => intro cur; simp [splitLongGo, wordsAll]
  | cons w rest ih =>
    intro cur
    by_cases h1 : cur ≠ [] ∧ maxC < cur.length + 1 + w.length
    · by_cases h2 : minW ≤ getWordCount cur
      · simp only [splitLongGo, if_pos h1, if_pos h2]
        rw [wordsAll_cons, wordsOf_trim, List.append_assoc, ih w, wordsAll_cons]
      · simp only [splitLongGo, if_pos h1, if_neg h2]
        rw [ih, wordsOf_trim, wordsOf_append_sp, wordsAll_cons, List.append_assoc]
    · simp only [splitLongGo, if_neg h1]
      by_cases hc : cur = []
      · subst hc
        simp only [if_pos rfl]
        rw [ih, wordsAll_cons]
        rfl
      · simp only [if_neg hc]
        rw [ih, wordsOf_append_sp, wordsAll_cons, List.append_assoc]

/-- `flushStep` only regroups words. -/
theorem flushStep_words (maxC minW : Nat) (c : List Char) :
    wordsAll (flushStep maxC minW c).1 ++ wordsOf (flushStep maxC minW c).2 =
      wordsOf c := by
  by_cases h : maxC < c.length
  · simp only [flushStep, if_pos h, splitLongSentence]
    rw [splitLongGo_words, wordsAll_splitOnSpace]
    rfl
  · simp [flushStep, if_neg h, wordsAll]

/-- The sentence-accumulation loop only regroups words. -/
theorem mainGo_words (maxC minW : Nat) (sents : List (List Char)) :
    ∀ cur, wordsAll (mainGo maxC minW sents cur) = wordsOf cur ++ wordsAll sents := by
  induction sents with
  | nil =>
    intro cur
    by_cases h : trim cur = []
    · have : wordsOf cur = [] := by
        rw [← wordsOf_trim, h]; rfl
      simp [mainGo, h, this, wordsAll]
    · simp [mainGo, h, wordsAll, wordsOf_trim]
  | cons s rest ih =>
    intro cur
    have hf : ∀ c : List Char,
        wordsAll ((flushStep maxC minW c).1 ++
            mainGo maxC minW rest (flushStep maxC minW c).2) =
          wordsOf c ++ wordsAll rest := by
      intro c
      rw [wordsAll_append, ih, ← List.append_assoc, flushStep_words]
    by_cases h1 : cur ≠ [] ∧ maxC < cur.length + 1 + (trim s).length
    · by_cases h2 : minW ≤ getWordCount cur
      · simp only [mainGo, if_pos h1, if_pos h2]
        rw [wordsAll_cons, hf, wordsOf_trim, wordsOf_trim, wordsAll_cons]
      · simp only [mainGo, if_pos h1, if_neg h2]
        rw [hf, wordsOf_trim, wordsOf_append_sp, wordsOf_trim, wordsAll_cons,
          List.append_assoc]
    · simp only [mainGo, if_neg h1]
      by_cases hc : cur = []
      · subst hc
        have hif : (if ([] : List Char) = [] then trim s else [] ++ ' ' :: trim s) =
            trim s := if_pos rfl
        rw [hif, hf, wordsOf_trim, wordsAll_cons]
        rfl
      · rw [if_neg hc, hf, wordsOf_append_sp, wordsOf_trim, wordsAll_cons,
          List.append_assoc]

/-- The sentence split only regroups words. -/
theorem splitSentGo_words (s : List Char) :
    ∀ st : Option (List Char),
      wordsAll (splitSentGo st s) =
        wordsOf ((match st with | some acc => acc.reverse | none => []) ++ s) := by
  induction s with
  | nil =>
    intro st
    match st with
    | some acc => simp [splitSentGo, wordsAll]
    | none => simp [splitSentGo, wordsAll]
  | cons c s ih =>
    intro st
    match st with
    | some acc =>
      by_cases hb : (isWs c && (match acc with | p :: _ => isPunct p | [] => false)) = true
      · simp only [splitSentGo, hb, if_true]
        rw [wordsAll_cons, ih none]
        have hws : isWs c = true := (Bool.and_eq_true _ _ ▸ hb).1
        show wordsOf acc.reverse ++ wordsOf ([] ++ s) = _
        rw [List.nil_append]
        exact (wordsGo_append_ws hws acc.reverse s []).symm
      · simp only [splitSentGo, hb, if_false, Bool.false_eq_true]
        rw [ih (some (c :: acc))]
        simp
    | none =>
      by_cases hws : isWs c = true
      · simp only [splitSentGo, hws, if_true]
        rw [ih none]
        show wordsOf ([] ++ s) = wordsOf ([] ++ c :: s)
        simp only [List.nil_append]
        simp [wordsOf, wordsGo, hws]
      · simp only [splitSentGo, hws, if_false, Bool.false_eq_true]
        rw [ih (some [c])]
        simp

/-- Filtering out word-free strings preserves the concatenated word list. -/
theorem wordsAll_filter {p : List Char → Bool} {l : List (List Char)}
    (h : ∀ x ∈ l, p x = false → wordsOf x = []) :
    wordsAll (l.filter p) = wordsAll l := by
  induction l with
  | nil => rfl
  | cons x xs ih =>
    have hxs : ∀ y ∈ xs, p y = false → wordsOf y = [] :=
      fun y hy => h y (List.mem_cons_of_mem _ hy)
    by_cases hx : p x = true
    · simp [List.filter_cons, hx, wordsAll_cons, ih hxs]
    · have hx0 : wordsOf x = [] := h x (by simp) (by simpa using hx)
      simp [List.filter_cons, hx, wordsAll_cons, hx0, ih hxs]

/-- Trimming each entry preserves the concatenated word list. -/
theorem wordsAll_map_trim (l : List (List Char)) :
    wordsAll (l.map trim) = wordsAll l := by
  induction l with
  | nil => rfl
  | cons x xs ih => simp [wordsAll_cons, wordsOf_trim, ih]

/-- `periodStep` either keeps a slide or appends a single period. -/
theorem periodStep_eq (t : List Char) :
    periodStep t = t ∨ periodStep t = t ++ ['.'] := by
  unfold periodStep
  split
  · split
    · right; rfl
    · left; rfl
  · left; rfl

/-- Decomposition of membership in `postProcessSlides`. -/
theorem mem_postProcess {s : List Char} {slides : List (List Char)}
    {opts : TextSplitterOptions} (h : s ∈ postProcessSlides slides opts) :
    ∃ t, s = periodStep t ∧ 0 < t.length ∧ (∃ u, t = trim u) ∧
      Nat.min opts.minWordsPerSlide 1 ≤ getWordCount t := by
  unfold postProcessSlides at h
  rcases List.mem_map.mp h with ⟨t, ht, rfl⟩
  rcases List.mem_filter.mp ht with ⟨ht2, hq⟩
  rcases List.mem_filter.mp ht2 with ⟨ht3, hr⟩
  rcases List.mem_map.mp ht3 with ⟨u, _, rfl⟩
  exact ⟨trim u, rfl, by simpa using hr, ⟨u, rfl⟩, by simpa using hq⟩

/-- The two shapes of a `splitTextIntoSlides` run: empty result, or
post-processed main loop. -/
theorem splitTextIntoSlides_eq (text : List Char) (opts : TextSplitterOptions) :
    splitTextIntoSlides text opts = [] ∨
    splitTextIntoSlides text opts =
      postProcessSlides
        (mainGo opts.maxCharacters opts.minWordsPerSlide
          ((splitSentences (addBreaks (collapseWs (trim text)))).filter
            (fun s => decide (0 < (trim s).length))) [])
        opts := by
  by_cases h0 : trim text = []
  · left; simp [splitTextIntoSlides, h0]
  · by_cases h1 : (splitSentences (addBreaks (collapseWs (trim text)))).filter
        (fun s => decide (0 < (trim s).length)) = []
    · left; simp [splitTextIntoSlides, h0, h1]
    · right; simp [splitTextIntoSlides, h0, h1]

theorem wordsAll_filter_len (l : List (List Char)) :
    wordsAll (l.filter (fun s => decide (0 < s.length))) = wordsAll l := by
  apply wordsAll_filter
  intro x _ hpx
  have hx : x.length = 0 := Nat.eq_zero_of_not_pos (by simpa using hpx)
  rw [List.length_eq_zero.mp hx]
  rfl

theorem wordsAll_filter_wc (m : Nat) (l : List (List Char)) :
    wordsAll (l.filter (fun s => decide (Nat.min m 1 ≤ getWordCount s))) =
      wordsAll l := by
  apply wordsAll_filter
  intro x _ hpx
  have hlt : getWordCount x < Nat.min m 1 := by simpa using hpx
  have h0 : getWordCount x = 0 :=
    Nat.lt_one_iff.mp (lt_of_lt_of_le hlt (Nat.min_le_right _ _))
  rw [getWordCount_eq] at h0
  exact List.length_eq_zero.mp h0

theorem wordsAll_filter_trimlen (l : List (List Char)) :
    wordsAll (l.filter (fun s => decide (0 < (trim s).length))) = wordsAll l := by
  apply wordsAll_filter
  intro x _ hpx
  have hx : (trim x).length = 0 := Nat.eq_zero_of_not_pos (by simpa using hpx)
  rw [← wordsOf_trim, List.length_eq_zero.mp hx]
  rfl

theorem wordsAll_splitSentences (s : List Char) :
    wordsAll (splitSentences s) = wordsOf s := by
  rw [splitSentences, splitSentGo_words]
  rfl

/-! ### Claim theorems for the text splitter -/

/-- The C1 example input. -/
def inC1 : List Char :=
  ("Short one. This is sentence two, which is also fairly short. Sentence three is here too.").toList

/-- The C1 example options (`{maxCharacters: 40, minWordsPerSlide: 3}` merged
with the defaults). -/
def optsC1 : TextSplitterOptions :=
  { maxCharacters := 40, respectSentenceBoundaries := true, minWordsPerSlide := 3 }

/-- C1 (counterexample): on the example input, `splitTextIntoSlides` does
not return the three slides claimed by the specification — "Short one." has
only two words, so it is force-merged with the 49-character second sentence
and the merged buffer is then re-split at word granularity. -/
theorem C1_counterexample :
    splitTextIntoSlides inC1 optsC1 ≠
      [("Short one.").toList,
       ("This is sentence two, which is also fairly short.").toList,
       ("Sentence three is here too.").toList] := by decide

/-- C1 (amended): the exact output of `splitTextIntoSlides` on the example
input — the first two sentences are force-merged, word-split at the
40-character budget, and the first chunk receives a post-processing
period. -/
theorem C1_exact_output :
    splitTextIntoSlides inC1 optsC1 =
      [("Short one. This is sentence two, which.").toList,
       ("is also fairly short.").toList,
       ("Sentence three is here too.").toList] := by decide

/-- C3 (counterexample): the returned slides need not contain the words of
the merely trimmed and whitespace-collapsed input.  On `"a.B"` the
sentence-boundary insertion splits the single input word `a.B` into `a.`
and `B`, so the input word occurs in no returned slide (with or without a
final period stripped). -/
theorem C3_counterexample :
    splitTextIntoSlides ("a.B").toList DEFAULT_OPTIONS = [("a. B").toList] ∧
    wordsOf (collapseWs (trim ("a.B").toList)) = [("a.B").toList] ∧
    (∀ s ∈ splitTextIntoSlides ("a.B").toList DEFAULT_OPTIONS,
      (("a.B").toList ∈ wordsOf s → False) ∧
      (("a.B").toList ∈
          wordsOf (if s.getLast? = some '.' then s.dropLast else s) → False)) := by
  decide

/-- C3 (amended): word preservation holds relative to the text after the
full normalization pipeline — trimming, whitespace collapsing *and*
sentence-boundary insertion (`([.!?])\s*([A-Z])` → `$1\n$2`, which may split
a word such as `a.B`).  The returned list is the image under the
post-processing period step of a list of slides whose concatenated words are
exactly (in particular, a superset of) the words of that normalized text:
words are never dropped, only regrouped. -/
theorem C3_no_word_loss (text : List Char) (opts : TextSplitterOptions) :
    ∃ pre : List (List Char),
      splitTextIntoSlides text opts = pre.map periodStep ∧
      wordsAll pre = wordsOf (addBreaks (collapseWs (trim text))) := by
  by_cases h0 : trim text = []
  · refine ⟨[], by simp [splitTextIntoSlides, h0], ?_⟩
    rw [h0]
    rfl
  by_cases h1 : (splitSentences (addBreaks (collapseWs (trim text)))).filter
      (fun s => decide (0 < (trim s).length)) = []
  · refine ⟨[], by simp [splitTextIntoSlides, h0, h1], ?_⟩
    have h2 := wordsAll_filter_trimlen
      (splitSentences (addBreaks (collapseWs (trim text))))
    rw [h1, wordsAll_splitSentences] at h2
    exact h2
  · refine ⟨(((mainGo opts.maxCharacters opts.minWordsPerSlide
        ((splitSentences (addBreaks (collapseWs (trim text)))).filter
          (fun s => decide (0 < (trim s).length))) []).map trim).filter
        (fun s => decide (0 < s.length))).filter
        (fun s => decide (Nat.min opts.minWordsPerSlide 1 ≤ getWordCount s)),
      ?_, ?_⟩
    · simp [splitTextIntoSlides, h0, h1, postProcessSlides]
    · rw [wordsAll_filter_wc, wordsAll_filter_len, wordsAll_map_trim, mainGo_words,
        wordsAll_filter_trimlen, wordsAll_splitSentences]
      rfl

/-- C6: characterization of `validateTextForSlides` — errors exactly for
empty-after-trim, under ten characters, or under three words; warnings
exactly for over 10,000 characters or over 2,000 words; `isValid` holds
exactly when there are no errors. -/
theorem C6_validateTextForSlides (text : List Char) :
    ((validateTextForSlides text).errors ≠ [] ↔
      (trim text = [] ∨ text.length < 10 ∨ getWordCount text < 3)) ∧
    ((validateTextForSlides text).warnings ≠ [] ↔
      (10000 < text.length ∨ 2000 < getWordCount text)) ∧
    ((validateTextForSlides text).isValid = true ↔
      (validateTextForSlides text).errors = []) := by
  refine ⟨?_, ?_, ?_⟩ <;>
    simp only [validateTextForSlides] <;> split_ifs <;> simp_all

/-- C7: whitespace-only input (in particular the empty string) yields an
empty slide list. -/
theorem C7_empty_input (text : List Char) (opts : TextSplitterOptions)
    (h : trim text = []) : splitTextIntoSlides text opts = [] := by
  simp [splitTextIntoSlides, h]

/-- C7 witness: the two concrete inputs of the claim. -/
theorem C7_witness :
    trim ("   ").toList = [] ∧
    splitTextIntoSlides ("   ").toList DEFAULT_OPTIONS = [] ∧
    splitTextIntoSlides ("").toList DEFAULT_OPTIONS = [] :=
  ⟨by decide, C7_empty_input _ _ (by decide), C7_empty_input _ _ (by decide)⟩

/-- C8: every returned slide is non-empty, not whitespace-only, and has at
least one word. -/
theorem C8_slides_nonempty (text : List Char) (opts : TextSplitterOptions) :
    ∀ s ∈ splitTextIntoSlides text opts,
      s ≠ [] ∧ trim s ≠ [] ∧ 1 ≤ getWordCount s := by
  intro s hs
  rcases splitTextIntoSlides_eq text opts with h | h
  · rw [h] at hs; cases hs
  · rw [h] at hs
    rcases mem_postProcess hs with ⟨t, rfl, htlen, ⟨u, htu⟩, _⟩
    have hwt : wordsOf t ≠ [] := by
      intro hnil
      have hwu : wordsOf u = [] := by rw [← wordsOf_trim u, ← htu, hnil]
      have h2 : trim u = [] := trim_eq_nil_of_allws ((wordsOf_eq_nil_iff u).mp hwu)
      rw [← htu] at h2
      rw [h2] at htlen
      exact absurd htlen (by simp)
    have hw : wordsOf (periodStep t) ≠ [] := by
      rcases periodStep_eq t with hp | hp <;> rw [hp]
      · exact hwt
      · intro hnil
        have hall := (wordsOf_eq_nil_iff _).mp hnil
        exact hwt ((wordsOf_eq_nil_iff t).mpr (fun c hc => hall c (by simp [hc])))
    refine ⟨?_, ?_, ?_⟩
    · intro hnil; rw [hnil] at hw; exact hw rfl
    · intro hnil
      have h3 := wordsOf_trim (periodStep t)
      rw [hnil] at h3
      exact hw h3.symm
    · rw [getWordCount_eq]
      exact Nat.pos_of_ne_zero (fun h0 => hw (List.length_eq_zero.mp h0))

/-- C8 witness: a concrete slide of a concrete run. -/
theorem C8_witness :
    ("Hello world today.").toList ∈
        splitTextIntoSlides ("Hello world today.").toList DEFAULT_OPTIONS ∧
      (("Hello world today.").toList ≠ [] ∧
        trim ("Hello world today.").toList ≠ [] ∧
        1 ≤ getWordCount ("Hello world today.").toList) :=
  ⟨by decide,
    C8_slides_nonempty ("Hello world today.").toList DEFAULT_OPTIONS
      ("Hello world today.").toList (by decide)⟩

/-! ### The instrumented splitter projects onto the plain one -/

theorem instrSplitLongGo_fst (maxC minW : Nat) (tokens : List (List Char)) :
    ∀ cur fl,
      (instrSplitLongGo maxC minW tokens cur fl).1.map Prod.fst =
          (splitLongGo maxC minW tokens cur).1 ∧
        (instrSplitLongGo maxC minW tokens cur fl).2.1 =
          (splitLongGo maxC minW tokens cur).2 := by
  induction tokens with
  | nil => intro cur fl; exact ⟨rfl, rfl⟩
  | cons w rest ih =>
    intro cur fl
    by_cases h1 : cur ≠ [] ∧ maxC < cur.length + 1 + w.length
    · by_cases h2 : minW ≤ getWordCount cur
      · simp only [instrSplitLongGo, splitLongGo, if_pos h1, if_pos h2,
          List.map_cons]
        exact ⟨by rw [(ih w _).1], (ih w _).2⟩
      · simp only [instrSplitLongGo, splitLongGo, if_pos h1, if_neg h2]
        exact ih _ _
    · simp only [instrSplitLongGo, splitLongGo, if_neg h1]
      exact ih _ _

theorem instrFlushStep_fst (maxC minW : Nat) (c : List Char) (fl : Bool) :
    (instrFlushStep maxC minW c fl).1.map Prod.fst = (flushStep maxC minW c).1 ∧
      (instrFlushStep maxC minW c fl).2.1 = (flushStep maxC minW c).2 := by
  by_cases h : maxC < c.length
  · simp only [instrFlushStep, flushStep, if_pos h, splitLongSentence]
    exact instrSplitLongGo_fst maxC minW (splitOnSpace c) [] false
  · simp [instrFlushStep, flushStep, if_neg h]

theorem instrMainGo_fst (maxC minW : Nat) (sents : List (List Char)) :
    ∀ cur fl,
      (instrMainGo maxC minW sents cur fl).map Prod.fst =
        mainGo maxC minW sents cur := by
  induction sents with
  | nil =>
    intro cur fl
    by_cases h : trim cur ≠ [] <;> simp [instrMainGo, mainGo, h]
  | cons s rest ih =>
    intro cur fl
    by_cases h1 : cur ≠ [] ∧ maxC < cur.length + 1 + (trim s).length
    · by_cases h2 : minW ≤ getWordCount cur
      · simp only [instrMainGo, mainGo, if_pos h1, if_pos h2, List.map_cons,
          List.map_append]
        rw [(instrFlushStep_fst maxC minW (trim s) _).1,
          ih _ _, (instrFlushStep_fst maxC minW (trim s) _).2]
      · simp only [instrMainGo, mainGo, if_pos h1, if_neg h2, List.map_append]
        rw [(instrFlushStep_fst maxC minW _ _).1, ih _ _,
          (instrFlushStep_fst maxC minW _ _).2]
    · simp only [instrMainGo, mainGo, if_neg h1, List.map_append]
      rw [(instrFlushStep_fst maxC minW _ _).1, ih _ _,
        (instrFlushStep_fst maxC minW _ _).2]

theorem map_fst_filter_fst (q : List Char → Bool) (l : List (List Char × Bool)) :
    (l.filter (fun p => q p.1)).map Prod.fst = (l.map Prod.fst).filter q := by
  induction l with
  | nil => rfl
  | cons x xs ih =>
    by_cases hx : q x.1 = true
    · simp only [List.filter_cons, List.map_cons, hx, if_true]
      rw [ih]
    · simp only [List.filter_cons, List.map_cons, hx, if_false, Bool.false_eq_true]
      exact ih

theorem map_fst_map_pair (f : List Char → List Char)
    (l : List (List Char × Bool)) :
    (l.map (fun p => (f p.1, p.2))).map Prod.fst = (l.map Prod.fst).map f := by
  induction l with
  | nil => rfl
  | cons x xs ih => simp only [List.map_cons, ih]

theorem instrPostProcess_fst (slides : List (List Char × Bool))
    (opts : TextSplitterOptions) :
    (instrPostProcessSlides slides opts).map Prod.fst =
      postProcessSlides (slides.map Prod.fst) opts := by
  simp only [instrPostProcessSlides, postProcessSlides]
  rw [map_fst_map_pair periodStep,
    map_fst_filter_fst
      (fun s => decide (Nat.min opts.minWordsPerSlide 1 ≤ getWordCount s)),
    map_fst_filter_fst (fun s => decide (0 < s.length)),
    map_fst_map_pair trim]

/-! ### Flag invariants of the instrumented splitter -/

theorem getWordCount_nil : getWordCount ([] : List Char) = 0 := rfl

/-- A fresh buffer's flag is set whenever the single unit placed in it
already exceeds the budget (given a positive word minimum). -/
theorem flagStep_fresh {maxC minW : Nat} (hmin : 1 ≤ minW) (w : List Char) :
    maxC < w.length → flagStep maxC minW false [] w = true := by
  intro hw
  simp [flagStep, hw, getWordCount_nil, hmin, Nat.lt_of_lt_of_le Nat.zero_lt_one hmin]

theorem instrSplitLongGo_flags {maxC minW : Nat} (hmin : 1 ≤ minW)
    (tokens : List (List Char)) :
    ∀ cur fl, (maxC < cur.length → fl = true) →
      (∀ p ∈ (instrSplitLongGo maxC minW tokens cur fl).1,
          p.2 = false → p.1.length ≤ maxC) ∧
        (maxC < (instrSplitLongGo maxC minW tokens cur fl).2.1.length →
          (instrSplitLongGo maxC minW tokens cur fl).2.2 = true) := by
  induction tokens with
  | nil =>
    intro cur fl hinv
    refine ⟨?_, hinv⟩
    intro p hp
    simp [instrSplitLongGo] at hp
  | cons w rest ih =>
    intro cur fl hinv
    by_cases h1 : cur ≠ [] ∧ maxC < cur.length + 1 + w.length
    · by_cases h2 : minW ≤ getWordCount cur
      · obtain ⟨ihall, ihrem⟩ := ih w _ (flagStep_fresh hmin w)
        constructor
        · intro p hp hpf
          simp only [instrSplitLongGo, if_pos h1, if_pos h2] at hp
          rcases List.mem_cons.mp hp with hpeq | hpmem
          · subst hpeq
            simp only at hpf
            have hcur : cur.length ≤ maxC := by
              by_contra hgt
              rw [hinv (Nat.lt_of_not_le hgt)] at hpf
              cases hpf
            exact le_trans (length_trim_le cur) hcur
          · exact ihall p hpmem hpf
        · simp only [instrSplitLongGo, if_pos h1, if_pos h2]
          exact ihrem
      · have hinv1 : maxC < (trim (cur ++ ' ' :: w)).length →
            flagStep maxC minW fl cur (trim (cur ++ ' ' :: w)) = true := by
          intro hc1
          by_cases hcm : cur.length ≤ maxC
          · simp [flagStep, hcm, hc1, Nat.lt_of_not_le h2]
          · simp [flagStep, hinv (Nat.lt_of_not_le hcm)]
        simpa only [instrSplitLongGo, if_pos h1, if_neg h2] using ih _ _ hinv1
    · have hinv1 : maxC < (if cur = [] then w else cur ++ ' ' :: w).length →
          flagStep maxC minW fl cur (if cur = [] then w else cur ++ ' ' :: w) =
            true := by
        by_cases hc : cur = []
        · subst hc
          intro hw
          have hw2 : maxC < w.length := by simpa using hw
          simp [flagStep, hw2, getWordCount_nil,
            Nat.lt_of_lt_of_le Nat.zero_lt_one hmin]
        · intro hlen
          rw [if_neg hc] at hlen
          exfalso
          have hle : ¬ maxC < cur.length + 1 + w.length := by
            intro hx; exact h1 ⟨hc, hx⟩
          apply hle
          calc maxC < (cur ++ ' ' :: w).length := hlen
            _ = cur.length + 1 + w.length := by simp; omega
      simpa only [instrSplitLongGo, if_neg h1] using ih _ _ hinv1

theorem instrFlushStep_flags {maxC minW : Nat} (hmin : 1 ≤ minW)
    (c : List Char) (fl : Bool) (_hinv : maxC < c.length → fl = true) :
    (∀ p ∈ (instrFlushStep maxC minW c fl).1, p.2 = false → p.1.length ≤ maxC) ∧
      (maxC < (instrFlushStep maxC minW c fl).2.1.length →
        (instrFlushStep maxC minW c fl).2.2 = true) := by
  by_cases h : maxC < c.length
  · simp only [instrFlushStep, if_pos h]
    exact instrSplitLongGo_flags hmin (splitOnSpace c) [] false (by simp)
  · simp only [instrFlushStep, if_neg h]
    exact ⟨by intro p hp; simp at hp, fun hlen => absurd hlen h⟩

theorem instrMainGo_flags {maxC minW : Nat} (hmin : 1 ≤ minW)
    (sents : List (List Char)) :
    ∀ cur fl, (maxC < cur.length → fl = true) →
      ∀ p ∈ instrMainGo maxC minW sents cur fl,
        p.2 = false → p.1.length ≤ maxC := by
  induction sents with
  | nil =>
    intro cur fl hinv p hp hpf
    by_cases h : trim cur ≠ []
    · simp only [instrMainGo, if_pos h, List.mem_singleton] at hp
      subst hp
      simp only at hpf
      have hcur : cur.length ≤ maxC := by
        by_contra hgt
        rw [hinv (Nat.lt_of_not_le hgt)] at hpf
        cases hpf
      exact le_trans (length_trim_le cur) hcur
    · simp [instrMainGo, if_neg h] at hp
  | cons s rest ih =>
    intro cur fl hinv p hp hpf
    by_cases h1 : cur ≠ [] ∧ maxC < cur.length + 1 + (trim s).length
    · by_cases h2 : minW ≤ getWordCount cur
      · obtain ⟨hq1, hq2⟩ :=
          instrFlushStep_flags hmin (trim s) _ (flagStep_fresh hmin (trim s))
        simp only [instrMainGo, if_pos h1, if_pos h2, List.mem_cons,
          List.mem_append] at hp
        rcases hp with hpeq | hpmem | hpmem
        · subst hpeq
          simp only at hpf
          have hcur : cur.length ≤ maxC := by
            by_contra hgt
            rw [hinv (Nat.lt_of_not_le hgt)] at hpf
            cases hpf
          exact le_trans (length_trim_le cur) hcur
        · exact hq1 p hpmem hpf
        · exact ih _ _ hq2 p hpmem hpf
      · have hinv1 : maxC < (trim (cur ++ ' ' :: trim s)).length →
            flagStep maxC minW fl cur (trim (cur ++ ' ' :: trim s)) = true := by
          intro hc1
          by_cases hcm : cur.length ≤ maxC
          · simp [flagStep, hcm, hc1, Nat.lt_of_not_le h2]
          · simp [flagStep, hinv (Nat.lt_of_not_le hcm)]
        obtain ⟨hq1, hq2⟩ := instrFlushStep_flags hmin _ _ hinv1
        simp only [instrMainGo, if_pos h1, if_neg h2, List.mem_append] at hp
        rcases hp with hpmem | hpmem
        · exact hq1 p hpmem hpf
        · exact ih _ _ hq2 p hpmem hpf
    · have hinv1 : maxC <
            (if cur = [] then trim s else cur ++ ' ' :: trim s).length →
          flagStep maxC minW fl cur
              (if cur = [] then trim s else cur ++ ' ' :: trim s) = true := by
        by_cases hc : cur = []
        · subst hc
          intro hw
          have hw2 : maxC < (trim s).length := by simpa using hw
          simp [flagStep, hw2, getWordCount_nil,
            Nat.lt_of_lt_of_le Nat.zero_lt_one hmin]
        · intro hlen
          rw [if_neg hc] at hlen
          exfalso
          have hle : ¬ maxC < cur.length + 1 + (trim s).length := by
            intro hx; exact h1 ⟨hc, hx⟩
          apply hle
          calc maxC < (cur ++ ' ' :: trim s).length := hlen
            _ = cur.length + 1 + (trim s).length := by simp; omega
      obtain ⟨hq1, hq2⟩ := instrFlushStep_flags hmin _ _ hinv1
      simp only [instrMainGo, if_neg h1, List.mem_append] at hp
      rcases hp with hpmem | hpmem
      · exact hq1 p hpmem hpf
      · exact ih _ _ hq2 p hpmem hpf

theorem instrPostProcess_flags {slides : List (List Char × Bool)}
    {opts : TextSplitterOptions}
    (h : ∀ p ∈ slides, p.2 = false → p.1.length ≤ opts.maxCharacters) :
    ∀ p ∈ instrPostProcessSlides slides opts, p.2 = false →
      ∃ s, (p.1 = s ∨ p.1 = s ++ ['.']) ∧ s.length ≤ opts.maxCharacters := by
  intro p hp hpf
  unfold instrPostProcessSlides at hp
  rcases List.mem_map.mp hp with ⟨q, hq, rfl⟩
  rcases List.mem_filter.mp hq with ⟨hq2, _⟩
  rcases List.mem_filter.mp hq2 with ⟨hq3, _⟩
  rcases List.mem_map.mp hq3 with ⟨r, hr, rfl⟩
  simp only at hpf
  have hlen : r.1.length ≤ opts.maxCharacters := h r hr hpf
  have ht : (trim r.1).length ≤ opts.maxCharacters :=
    le_trans (length_trim_le r.1) hlen
  rcases periodStep_eq (trim r.1) with hperiod | hperiod
  · exact ⟨trim r.1, Or.inl (by simpa using hperiod), ht⟩
  · exact ⟨trim r.1, Or.inr (by simpa using hperiod), ht⟩

/-- The two shapes of an instrumented run. -/
theorem instrSplitTextIntoSlides_eq (text : List Char)
    (opts : TextSplitterOptions) :
    instrSplitTextIntoSlides text opts = [] ∨
    instrSplitTextIntoSlides text opts =
      instrPostProcessSlides
        (instrMainGo opts.maxCharacters opts.minWordsPerSlide
          ((splitSentences (addBreaks (collapseWs (trim text)))).filter
            (fun s => decide (0 < (trim s).length))) [] false)
        opts := by
  by_cases h0 : trim text = []
  · left; simp [instrSplitTextIntoSlides, h0]
  · by_cases h1 : (splitSentences (addBreaks (collapseWs (trim text)))).filter
        (fun s => decide (0 < (trim s).length)) = []
    · left; simp [instrSplitTextIntoSlides, h0, h1]
    · right; simp [instrSplitTextIntoSlides, h0, h1]

/-! ### Claim theorems for the character budget -/

/-- The C2 counterexample input and options. -/
def inC2 : List Char := ("aaaa bbbb ccccc dddd eeee ffff gggg").toList

/-- Options for the C2 counterexample. -/
def optsC2 : TextSplitterOptions :=
  { maxCharacters := 15, respectSentenceBoundaries := true, minWordsPerSlide := 3 }

/-- C2 (counterexample): a returned slide can exceed `maxCharacters` even
though no content was ever force-merged into a buffer short of
`minWordsPerSlide` (the instrumented run records no forced merge: every
ghost flag is `false`).  The 15-character chunk `aaaa bbbb ccccc` receives a
post-processing period and ends up 16 > 15 characters long. -/
theorem C2_counterexample :
    splitTextIntoSlides inC2 optsC2 =
      [("aaaa bbbb ccccc.").toList, ("dddd eeee ffff.").toList,
       ("gggg").toList] ∧
    instrSplitTextIntoSlides inC2 optsC2 =
      [(("aaaa bbbb ccccc.").toList, false), (("dddd eeee ffff.").toList, false),
       (("gggg").toList, false)] ∧
    optsC2.maxCharacters < ("aaaa bbbb ccccc.").toList.length := by decide

/-- C2 (amended): for positive `maxCharacters` and `minWordsPerSlide ≥ 1`,
the instrumented run projects onto `splitTextIntoSlides`, and every slide
whose ghost flag is clear — i.e. whose content was never force-merged into a
buffer with fewer than `minWordsPerSlide` words at the moment the buffer
first exceeded the budget — is within `maxCharacters` up to the single
period that post-processing may append (its pre-period text is within the
budget). -/
theorem C2_soft_char_bound (text : List Char) (opts : TextSplitterOptions)
    (_hmax : 0 < opts.maxCharacters) (hmin : 1 ≤ opts.minWordsPerSlide) :
    (instrSplitTextIntoSlides text opts).map Prod.fst =
        splitTextIntoSlides text opts ∧
      ∀ p ∈ instrSplitTextIntoSlides text opts, p.2 = false →
        ∃ s, (p.1 = s ∨ p.1 = s ++ ['.']) ∧ s.length ≤ opts.maxCharacters := by
  constructor
  · by_cases h0 : trim text = []
    · simp [instrSplitTextIntoSlides, splitTextIntoSlides, h0]
    · by_cases h1 : (splitSentences (addBreaks (collapseWs (trim text)))).filter
          (fun s => decide (0 < (trim s).length)) = []
      · simp [instrSplitTextIntoSlides, splitTextIntoSlides, h0, h1]
      · simp only [instrSplitTextIntoSlides, splitTextIntoSlides, h0, h1,
          if_false, if_neg, not_false_iff]
        rw [instrPostProcess_fst, instrMainGo_fst]
  · intro p hp hpf
    rcases instrSplitTextIntoSlides_eq text opts with h | h
    · rw [h] at hp; cases hp
    · rw [h] at hp
      exact instrPostProcess_flags
        (instrMainGo_flags hmin _ [] false (by simp)) p hp hpf

/-- C2 witness: the amended bound at the counterexample input. -/
theorem C2_witness :
    0 < optsC2.maxCharacters ∧ 1 ≤ optsC2.minWordsPerSlide ∧
      ((instrSplitTextIntoSlides inC2 optsC2).map Prod.fst =
          splitTextIntoSlides inC2 optsC2 ∧
        ∀ p ∈ instrSplitTextIntoSlides inC2 optsC2, p.2 = false →
          ∃ s, (p.1 = s ∨ p.1 = s ++ ['.']) ∧
            s.length ≤ optsC2.maxCharacters) :=
  ⟨by decide, by decide, C2_soft_char_bound inC2 optsC2 (by decide) (by decide)⟩

/-! ### Claim theorems for the content analyzer -/

/-- The C4 example input. -/
def inC4 : List Char :=
  ("Title: \"Hello\"\nBody: \"World\"\nVisual: \"none\"").toList

/-- C4: if the labeled extraction produced a truthy (non-empty) title, body
or visual, `analyzeContent` returns exactly the labeled extraction — the
heuristic phase never runs; on the example input the result is title
`Hello`, body `World`, visual `none` (the string), and no
`visualSnippet`. -/
theorem C4_labeled_wins :
    (∀ text : List Char, hasAnyLabel (extractLabeled text) = true →
      analyzeContent text = extractLabeled text) ∧
    analyzeContent inC4 =
      { title := some (("Hello").toList), body := some (("World").toList),
        visual := some (("none").toList), visualSnippet := none,
        tags := none } := by
  constructor
  · intro text h
    simp [analyzeContent, h]
  · decide

/-- C4 witness: the example input takes the labeled path. -/
theorem C4_witness :
    hasAnyLabel (extractLabeled inC4) = true ∧
      analyzeContent inC4 = extractLabeled inC4 :=
  ⟨by decide, C4_labeled_wins.1 inC4 (by decide)⟩

/-- The C9 example input. -/
def inC9 : List Char := ("Great tips #AI #ai #productivity").toList

/-- C9: on the heuristic path, the returned tags are the hashtag matches of
the normalized text, lower-cased and de-duplicated keeping first
occurrences; on the example input they are exactly `#ai` and
`#productivity`. -/
theorem C9_tags :
    (∀ text : List Char, hasAnyLabel (extractLabeled text) = false →
      (analyzeContent text).tags =
        some (dedupFirst
          ((hashtags (normalize text)).map (List.map Char.toLower)))) ∧
    (analyzeContent inC9).tags =
      some [("#ai").toList, ("#productivity").toList] := by
  constructor
  · intro text h
    simp [analyzeContent, h, heuristics]
  · decide

/-- C9 witness: the example input takes the heuristic path. -/
theorem C9_witness :
    hasAnyLabel (extractLabeled inC9) = false ∧
      (analyzeContent inC9).tags =
        some (dedupFirst
          ((hashtags (normalize inC9)).map (List.map Char.toLower))) :=
  ⟨by decide, C9_tags.1 inC9 (by decide)⟩

/-- C10: on the labeled path the returned record has no tags — the labeled
extraction never fills the `tags` field, even when the text contains
hashtags. -/
theorem C10_labeled_no_tags (text : List Char)
    (h : hasAnyLabel (extractLabeled text) = true) :
    (analyzeContent text).tags = none := by
  have h2 : analyzeContent text = extractLabeled text := by
    simp [analyzeContent, h]
  rw [h2]
  rfl

/-- C10 witness: a labeled input that does contain hashtag tokens still gets
no tags. -/
theorem C10_witness :
    hasAnyLabel (extractLabeled ("Title: \"Hi\" #AI #ml").toList) = true ∧
      hashtags (normalize ("Title: \"Hi\" #AI #ml").toList) ≠ [] ∧
      (analyzeContent ("Title: \"Hi\" #AI #ml").toList).tags = none :=
  ⟨by decide, by decide, C10_labeled_no_tags _ (by decide)⟩

/-! ### Claim theorems for the slide-option validator -/

/-- C5 (counterexample): a provided `width` of `0` lies outside
`[100, 4000]`, yet the validator accepts it — JavaScript truthiness
(`options.width && ...`) skips the range check for the falsy value `0`. -/
theorem C5_counterexample :
    validateSlideOptions { width := some 0 } =
      { isValid := true, errors := [] } ∧
    (0 : Int) < 100 := by decide

/-- C5 (amended): the validator reports `isValid` exactly when every
*truthy* provided field is in range — a provided width/height of `0`, a
provided quality of `0`, and a provided empty-string format are skipped by
the JavaScript truthiness guards and never rejected. -/
theorem errIf_eq_nil {c : Prop} [Decidable c] (msg : String) :
    ((if c then [msg] else []) = []) ↔ ¬ c := by
  split_ifs with hc <;> simp [hc]

theorem intRangeOk (w : Int) :
    ¬(w ≠ 0 ∧ (w < 100 ∨ 4000 < w)) ↔ (w = 0 ∨ (100 ≤ w ∧ w ≤ 4000)) := by
  omega

theorem qualityRangeOk (q : ℚ) :
    ¬(q ≠ 0 ∧ (q < 1/10 ∨ 1 < q)) ↔ (q = 0 ∨ (1/10 ≤ q ∧ q ≤ 1)) := by
  constructor
  · intro hc
    by_cases hq : q = 0
    · exact Or.inl hq
    · push_neg at hc
      exact Or.inr (hc hq)
  · rintro (rfl | ⟨h1, h2⟩) ⟨hne, hr⟩
    · exact hne rfl
    · rcases hr with h3 | h3
      · exact absurd h3 (not_lt.mpr h1)
      · exact absurd h3 (not_lt.mpr h2)

theorem formatRangeOk (f : String) :
    ¬(f ≠ "" ∧ ¬(f = "png" ∨ f = "jpg")) ↔
      (f = "" ∨ f = "png" ∨ f = "jpg") := by
  tauto

theorem C5_validateSlideOptions (o : SlideOptionsIn) :
    (validateSlideOptions o).isValid = true ↔
      ((∀ w, o.width = some w → w = 0 ∨ (100 ≤ w ∧ w ≤ 4000)) ∧
       (∀ h, o.height = some h → h = 0 ∨ (100 ≤ h ∧ h ≤ 4000)) ∧
       (∀ q, o.quality = some q → q = 0 ∨ (1/10 ≤ q ∧ q ≤ 1)) ∧
       (∀ f, o.format = some f → f = "" ∨ f = "png" ∨ f = "jpg")) := by
  rcases o with ⟨w, h, q, f⟩
  cases w <;> cases h <;> cases q <;> cases f <;>
    simp only [validateSlideOptions, List.isEmpty_iff, List.append_eq_nil,
      errIf_eq_nil, intRangeOk, qualityRangeOk, formatRangeOk,
      Option.some.injEq, forall_eq', reduceCtorEq, false_implies, forall_const,
      implies_true, true_and, and_true] <;>
    tauto

end MyCarousel
